import Mathlib

/-!
A verification development for the frplib computational kernel: the canonical
Kind (finite discrete distribution) algebra of `kinds.py` and the symbolic
quantity engine of `symbolic.py`.

Values are tuples (`List V`) over an ordered entry type `V`; weights are exact
rationals `ℚ` (the "purely numeric" weights of the spec).  The external modules
`frplib.kind_trees`, `frplib.numeric` and `frplib.vec_tuples` are not among the
sources; the few pieces of them that the kernel touches (`KindBranch`, numeric
coercions, tuple ordering) are modelled from the spec where noted.
-/

namespace Frplib

/-- Modelled from the spec: `KindBranch` comes from the external module
`frplib.kind_trees`, which is not among the sources.  Per spec §3, a branch is
one `(value, weight)` pair: the value an ordered tuple of quantities, the
weight a quantity.  `KindBranch.make(vs=v, p=w)` is the anonymous
constructor. -/
structure KindBranch (V : Type) where
  vs : List V
  p  : ℚ
deriving DecidableEq, Repr

/-- Modelled from the spec: `KindBranch.bimap` (external `frplib.kind_trees`)
applies a function to the branch value and keeps the weight; it is how
`Kind.map` transforms a branch. -/
def KindBranch.bimap {V : Type} (f : List V → List V) (b : KindBranch V) : KindBranch V :=
  ⟨f b.vs, b.p⟩

/-- One step of a Python dict insertion keyed by `key`: if an element with the
same key is present it is replaced in place by `merge old new`; otherwise the
new element is appended at the end (dict insertion order). -/
def upsertBy {α κ : Type} (key : α → κ) [DecidableEq κ] (merge : α → α → α) :
    List α → α → List α
  | [], x => [x]
  | y :: ys, x => if key y = key x then merge y x :: ys else y :: upsertBy key merge ys x

variable {V : Type}

/-- The weight total `sum(map(lambda b: b.p, canonical))` of
`normalize_branches` (`kinds.py` line 74). -/
def total (bs : List (KindBranch V)) : ℚ := (bs.map KindBranch.p).sum

variable [LinearOrder V]

/-- Modelled from the spec: the order by which branches are sorted is the order
on value tuples (spec §3, invariant 2), i.e. Python tuple comparison of the
external `VecTuple`s: lexicographic, comparing entries by `<`, a strict prefix
being smaller. -/
def listLt : List V → List V → Bool
  | [], [] => false
  | [], _ :: _ => true
  | _ :: _, [] => false
  | x :: xs, y :: ys => if x < y then true else if y < x then false else listLt xs ys

/-- Non-strict companion of `listLt`: Python's ascending `sorted` places an
element before exactly those elements it is strictly less than, i.e. keeps
`b₁` before `b₂` when `¬ (b₂ < b₁)`. -/
def listLe (v w : List V) : Bool := !(listLt w v)

/-- The dict-accumulation pass of `normalize_branches` (`kinds.py` 73–79):
each branch enters with weight `p / total`, and a duplicate value accumulates
onto the weight already seen. -/
def normSeen (canonical : List (KindBranch V)) : List (KindBranch V) :=
  canonical.foldl
    (fun acc b =>
      upsertBy KindBranch.vs (fun old new => ⟨old.vs, old.p + new.p⟩) acc
        ⟨b.vs, b.p / total canonical⟩)
    []

/-- `normalize_branches` (`kinds.py` 72–80): fold the branches through a dict
keyed on the value, each contribution entering as `p / total` and duplicate
values accumulating, then sort the merged branches by value
(`sorted(seen.values(), key=lambda b: b.vs)`). -/
def normalize_branches (canonical : List (KindBranch V)) : List (KindBranch V) :=
  (normSeen canonical).insertionSort (fun b₁ b₂ => listLe b₁.vs b₂.vs = true)

/-- The Kind of a fixed random payoff (`kinds.py`, class `Kind`): the wrapper
around the canonical branch list `_canonical`.  The constructor path modelled
is the `CanonicalKind` branch of `Kind.__init__` (a list of branches passed
through `normalize_branches`); the string/tree parsing paths delegate to the
external parser and are outside the kernel (spec §1).  `Kind.__eq__` compares
canonical lists, which is equality of this structure. -/
@[ext]
structure Kind (V : Type) where
  canonical : List (KindBranch V)
deriving DecidableEq, Repr

/-- `Kind.__init__` on a canonical branch list (`kinds.py` 100–101). -/
def mkKind (spec : List (KindBranch V)) : Kind V := ⟨normalize_branches spec⟩

/-- `Kind.size` (`kinds.py` 106, 110–113). -/
def Kind.size (K : Kind V) : ℕ := K.canonical.length

/-- `Kind.dim` (`kinds.py` 107, 115–118): 0 when empty, else the length of the
first branch value. -/
def Kind.dim (K : Kind V) : ℕ :=
  match K.canonical with
  | [] => 0
  | b :: _ => b.vs.length

/-- `Kind.empty` (`kinds.py` 82–84, 214): `EmptyKindDescriptor` returns
`Kind([])`. -/
def Kind.empty : Kind V := mkKind []

/-- `Kind.map` (`kinds.py` 179–182): transform every branch with
`KindBranch.bimap f` and rebuild the Kind (hence renormalize). -/
def Kind.map (K : Kind V) (f : List V → List V) : Kind V :=
  mkKind (K.canonical.map (KindBranch.bimap f))

/-- `Kind.bind` (`kinds.py` 194–203): expand every branch `(v, p)` into the
branches of `f(v)` with weights scaled by `p`, concatenate, and rebuild the
Kind. -/
def Kind.bind (K : Kind V) (f : List V → Kind V) : Kind V :=
  mkKind (K.canonical.flatMap fun b => (f b.vs).canonical.map fun sb => ⟨sb.vs, b.p * sb.p⟩)

/-- `Kind.unit` (`kinds.py` 205–208): the single-branch Kind with weight 1.
The external `as_numeric_vec` wraps the value as a vector tuple; values here
are already tuples. -/
def Kind.unit (v : List V) : Kind V := mkKind [⟨v, 1⟩]

/-- `Kind.independent_mixture` (`kinds.py` 253–275): if either side is empty
return the other, else the Cartesian product of branches with concatenated
values and multiplied weights.  The converter `kind(...)` applied to an
argument that is already a Kind returns it unchanged (`kinds.py` 685–688), so
the parameter is taken as a `Kind` directly. -/
def Kind.independent_mixture (K : Kind V) (kind_spec : Kind V) : Kind V :=
  let r_kind := kind_spec
  if r_kind.canonical.length = 0 then K
  else if K.canonical.length = 0 then r_kind
  else mkKind ((K.canonical.product r_kind.canonical).map
    fun br => ⟨br.1.vs ++ br.2.vs, br.1.p * br.2.p⟩)

/-- `Kind.__or__` (`kinds.py` 423–426): the conditional filter `K | predicate`.
`value_map` on a callable predicate returns it unchanged (`kinds.py` 52–56), so
the predicate is a boolean function on values.  The kept branches are passed to
the `Kind` constructor, hence through `normalize_branches`. -/
def Kind.filter (K : Kind V) (predicate : List V → Bool) : Kind V :=
  mkKind (K.canonical.filter fun b => predicate b.vs)

variable [Inhabited V]

/-- The projection `marginalize` applied to each value by `Kind.marginal`
(`kinds.py` 412–413): 1-indexed components for positive indices and Python
end-relative indexing (`value[i]` = `value[len(value) + i]`) for negative
ones.  Out-of-range access (impossible on the checked path) yields
`default`. -/
def marginalize (indices : List ℤ) (value : List V) : List V :=
  indices.map fun i =>
    if 0 < i then value.getD (i.toNat - 1) default
    else value.getD (value.length - (-i).toNat) default

/-- `Kind.marginal` (`kinds.py` 391–414) on the integer-arguments calling path
`K.marginal(i1, i2, ...)`: no indices yields `Kind.empty`; an index equal to
zero or outside `[-dim, dim]` raises `KindError`, modelled as `none`; otherwise
the projection is applied through `Kind.map`. -/
def Kind.marginal (K : Kind V) (index_spec : List ℤ) : Option (Kind V) :=
  let dim : ℤ := K.dim
  if index_spec = [] then some Kind.empty
  else if index_spec.any (fun index => index = 0 || index < -dim || index > dim) then none
  else some (K.map (marginalize index_spec))

/-- The result of `Kind.__getitem__`: a Kind, or the Python constant
`NotImplemented`. -/
inductive GetItemResult (V : Type) where
  | kind (k : Kind V)
  | notImplemented
deriving DecidableEq

/-- `Kind.__getitem__` (`kinds.py` 416–421) with an integer subscript `K[i]`
(the single argument reaches `marginal` as the index tuple `(i,)`): any
exception from `marginal` is caught and `NotImplemented` returned. -/
def Kind.getitem (K : Kind V) (indices : ℤ) : GetItemResult V :=
  match K.marginal [indices] with
  | some k => .kind k
  | none => .notImplemented

/-- One step of the accumulation loop of `Kind.expectation` (`kinds.py`
321–324): add `p * v` into the accumulator componentwise along the branch
value.  (Python would raise `IndexError` on a value longer than the
accumulator; Kind values are dimension-consistent.) -/
def addScaled (p : ℚ) : List ℚ → List ℚ → List ℚ
  | ex, [] => ex
  | [], _ => []
  | e :: ex, v :: vss => (e + p * v) :: addScaled p ex vss

/-- The expectation vector of `Kind.expectation` (`kinds.py` 315–325): start
from a zero vector of length `dim` and accumulate `p * v` over the branches.
(The source unwraps the vector to a bare scalar when `dim == 1`; the vector is
kept here and scalar claims read component 0.) -/
def Kind.expectation (K : Kind ℚ) : List ℚ :=
  K.canonical.foldl (fun ex b => addScaled b.p ex b.vs) (List.replicate K.dim 0)

/-- `either` (`kinds.py` 600–605): a choice between `a` and `b` with weight
ratio `weight_ratio`.  The external `as_numeric` / `as_numeric_vec` coercions
are modelled as the identity on the rational ratio and tuple wrapping of the
two values. -/
def either (a b : V) (weight_ratio : ℚ) : Kind V :=
  let ratio := weight_ratio
  let p_a := ratio / (1 + ratio)
  mkKind [⟨[a], p_a⟩, ⟨[b], 1 - p_a⟩]

/-- The canonical-form invariant (spec §3, §4.4): branches strictly sorted by
value (hence values unique) and, unless empty, weights summing to exactly 1.
Every Kind produced by the modelled constructor from branches with nonzero
total satisfies it. -/
def IsCanonical (bs : List (KindBranch V)) : Prop :=
  bs.Pairwise (fun b₁ b₂ => listLt b₁.vs b₂.vs = true) ∧ (bs = [] ∨ total bs = 1)

/-! ### The symbolic quantity engine (`symbolic.py`) -/

/-- A symbolic multinomial term `c a_1^k_1 ... a_n^k_n` (`symbolic.py`, class
`SymbolicMulti`): a rational coefficient and a variable→exponent mapping.  The
source stores the mapping as a Python dict with zero exponents stripped; the
dict is modelled as its canonical association list, sorted by variable name
with zero exponents stripped, so that structural equality is dict equality. -/
structure SymbolicMulti where
  term : List (String × ℤ)
  coef : ℚ
deriving DecidableEq, Repr

/-- `SymbolicMulti.__init__` (`symbolic.py` 70–96): with zero coefficient the
term map stays empty; otherwise exponents of repeated variables accumulate
additively (`multi[var] += pow`) and zero exponents are dropped (during the
sorted iteration that also produces the signature). -/
def SymbolicMulti.make (vars : List String) (powers : List ℤ) (coef : ℚ) : SymbolicMulti :=
  if coef = 0 then ⟨[], 0⟩
  else
    ⟨((((vars.zip powers).foldl
          (upsertBy Prod.fst fun old new => (old.1, old.2 + new.2)) []).insertionSort
        (fun p q => p.1 ≤ q.1)).filter fun p => decide (p.2 ≠ 0)), coef⟩

/-- `SymbolicMulti.from_terms` (`symbolic.py` 98–108): zero coefficient
collapses to the zero term, otherwise only the nonzero exponents are kept and
the class constructor re-canonicalizes them. -/
def SymbolicMulti.from_terms (multi : List (String × ℤ)) (coef : ℚ) : SymbolicMulti :=
  if coef = 0 then ⟨[], 0⟩
  else
    let entries := multi.filter fun p => decide (p.2 ≠ 0)
    SymbolicMulti.make (entries.map Prod.fst) (entries.map Prod.snd) coef

/-- `SymbolicMulti.pure` (`symbolic.py` 110–112). -/
def SymbolicMulti.pureTerm (x : ℚ) : SymbolicMulti := SymbolicMulti.make [] [] x

/-- `SymbolicMulti.pure_value` (`symbolic.py` 117–120): the coefficient when
the term is variable-free (`is_pure`, i.e. the term map is empty), else
`None`. -/
def SymbolicMulti.pure_value (m : SymbolicMulti) : Option ℚ :=
  if m.term = [] then some m.coef else none

/-- The `order` of a term (`symbolic.py` 74–84): the sum of the exponents. -/
def SymbolicMulti.order (m : SymbolicMulti) : ℤ := (m.term.map Prod.snd).sum

/-- `SymbolicMulti.__truediv__` by a plain number (`symbolic.py` 214–216):
divide the coefficient, keep the term. -/
def SymbolicMulti.divScalar (m : SymbolicMulti) (d : ℚ) : SymbolicMulti :=
  SymbolicMulti.from_terms m.term (m.coef / d)

/-- `symbolic_one` (`symbolic.py` 249). -/
def symbolic_one : SymbolicMulti := SymbolicMulti.pureTerm 1

/-- `symbol` (`symbolic.py` 785–787). -/
def symbol (var : String) : SymbolicMulti := SymbolicMulti.make [var] [1] 1

/-- Modelled from the spec: the canonical signature of a term (spec §3, "the
sorted, zero-exponent-stripped variable/exponent string, used … for
term-matching during addition").  The source builds it as a string
(`show_coef` of the coefficient for a pure term, else the joined
`var^pow` items); the string rendering lives in the external
`frplib.numeric`, so the signature is modelled as the underlying data. -/
inductive Sig where
  | pureSig (c : ℚ)
  | varsSig (vp : List (String × ℤ))
deriving DecidableEq, Repr

/-- The signature of a term (`symbolic.py` 74–96, 134–140): the coefficient
rendering when pure, else the sorted variable/exponent items. -/
def SymbolicMulti.signature (m : SymbolicMulti) : Sig :=
  if m.term = [] then .pureSig m.coef else .varsSig m.term

/-- Modelled from the spec: sums keep their terms "sorted by signature"
(§3) — the source sorts by the signature string, whose number rendering is
external.  Variable/exponent items compare lexicographically (variable first),
numeric signatures compare by value and sort before variable signatures. -/
def pairsLtSig : List (String × ℤ) → List (String × ℤ) → Bool
  | [], [] => false
  | [], _ :: _ => true
  | _ :: _, [] => false
  | p :: ps, q :: qs =>
    if p.1 < q.1 then true
    else if q.1 < p.1 then false
    else if p.2 < q.2 then true
    else if q.2 < p.2 then false
    else pairsLtSig ps qs

/-- Non-strict signature comparison used to sort the terms of a sum. -/
def sigLe : Sig → Sig → Bool
  | .pureSig c, .pureSig d => decide (c ≤ d)
  | .pureSig _, .varsSig _ => true
  | .varsSig _, .pureSig _ => false
  | .varsSig l, .varsSig m => !(pairsLtSig m l)

/-- A sum of symbolic multinomial terms (`symbolic.py`, class
`SymbolicMultiSum`): the combined term list, plus the stored `coef` (the
coefficient of the first highest-order term, used by the sum's key).  A pure
sum has an empty term list and its value in `coef`. -/
structure SymbolicMultiSum where
  terms : List SymbolicMulti
  coef : ℚ
deriving DecidableEq, Repr

/-- `SymbolicMultiSum.combine_terms` (`symbolic.py` 316–325): accumulate the
terms in a dict keyed by signature — a collision keeps the new term's map with
the summed coefficient — then drop zero-coefficient results. -/
def combine_terms (terms : List SymbolicMulti) : List SymbolicMulti :=
  (terms.foldl
      (upsertBy SymbolicMulti.signature
        fun old new => SymbolicMulti.from_terms new.term (old.coef + new.coef))
      []).filter fun v => decide (v.coef ≠ 0)

/-- The general branch of `SymbolicMultiSum.__init__` (`symbolic.py`
272–281): sort the combined terms by signature and scan for the first
strictly-highest-order term's coefficient.  (When no term has positive order
the source leaves `self.coef` unassigned; the scan's initial value 0 stands
for that unassigned field.) -/
def sumGeneral (ts : List SymbolicMulti) : SymbolicMultiSum :=
  let sorted := ts.insertionSort fun t₁ t₂ => sigLe t₁.signature t₂.signature = true
  ⟨sorted,
    (sorted.foldl (fun oc t => if oc.1 < t.order then (t.order, t.coef) else oc)
      ((0 : ℤ), (0 : ℚ))).2⟩

/-- `SymbolicMultiSum.__init__` (`symbolic.py` 258–281): empty combination is
the numeric 0, a single pure combined term collapses to a pure sum, otherwise
the sorted general form. -/
def SymbolicMultiSum.make (multis : List SymbolicMulti) : SymbolicMultiSum :=
  match combine_terms multis with
  | [] => ⟨[], 0⟩
  | [t] => if t.term = [] then ⟨[], t.coef⟩ else sumGeneral [t]
  | t₁ :: t₂ :: ts => sumGeneral (t₁ :: t₂ :: ts)

/-- `SymbolicMultiSum.pure_value` (`symbolic.py` 291–297). -/
def SymbolicMultiSum.pure_value (s : SymbolicMultiSum) : Option ℚ :=
  if s.terms = [] then some s.coef else none

/-- `SymbolicMultiSum.singleton` (`symbolic.py` 312–314). -/
def SymbolicMultiSum.singleton (m : SymbolicMulti) : SymbolicMultiSum :=
  SymbolicMultiSum.make [m]

/-- `SymbolicMultiSum.__truediv__` by a plain number (`symbolic.py` 443–448):
division by 1 returns the sum itself, otherwise every term's coefficient is
divided and the sum is rebuilt through the constructor. -/
def SymbolicMultiSum.divScalar (s : SymbolicMultiSum) (d : ℚ) : SymbolicMultiSum :=
  if d = 1 then s else SymbolicMultiSum.make (s.terms.map fun t => t.divScalar d)

/-- Modelled from the spec: the sum's key (`symbolic.py` 264–279) is the
string `'0'` for the zero sum, `'1'` for a pure sum, else the joined rendering
of every term divided by the stored coefficient; renderings are external, so
the key is modelled as the underlying data. -/
inductive SumKey where
  | keyZero
  | keyOne
  | keyTerms (ts : List SymbolicMulti)
deriving DecidableEq, Repr

/-- The key of a sum (`symbolic.py` 264, 271, 279). -/
def SymbolicMultiSum.key (s : SymbolicMultiSum) : SumKey :=
  if s.terms = [] then (if s.coef = 0 then .keyZero else .keyOne)
  else .keyTerms (s.terms.map fun t => t.divScalar s.coef)

/-- A ratio of sums (`symbolic.py`, class `SymbolicMultiRatio`, 482–497). -/
structure SymbolicMultiRatio where
  numerator : SymbolicMultiSum
  denominator : SymbolicMultiSum
deriving DecidableEq, Repr

/-- `SymbolicMultiRatio.pure_value` (`symbolic.py` 512–518): the quotient of
the pure values when both sides are pure.  (Python would raise on a zero pure
denominator; rational division by zero yields 0 here, unreachable under the
claims' hypotheses.) -/
def SymbolicMultiRatio.pure_value (r : SymbolicMultiRatio) : Option ℚ :=
  match r.numerator.pure_value, r.denominator.pure_value with
  | some n, some d => some (n / d)
  | _, _ => none

/-- The dynamic value space of `simplify` (`symbolic.py` 698): a plain number,
a monomial, a sum, or a ratio. -/
inductive SymQuantity where
  | num (q : ℚ)
  | multi (m : SymbolicMulti)
  | sum (s : SymbolicMultiSum)
  | ratio (r : SymbolicMultiRatio)
deriving DecidableEq, Repr

/-- `simplify` (`symbolic.py` 698–724): plain numbers pass through; a pure
value collapses to a number; monomials and sums otherwise pass through; for a
ratio, a pure zero numerator is 0, a pure nonzero numerator moves its value
into the denominator (`1 / (denominator / npv)`), a pure denominator is
divided into the numerator (yielding a plain sum), and equal numerator and
denominator keys collapse to the coefficient ratio. -/
def simplify : SymQuantity → SymQuantity
  | .num q => .num q
  | .multi m =>
    match m.pure_value with
    | some v => .num v
    | none => .multi m
  | .sum s =>
    match s.pure_value with
    | some v => .num v
    | none => .sum s
  | .ratio a =>
    match a.pure_value with
    | some v => .num v
    | none =>
      match a.numerator.pure_value with
      | some npv =>
        if npv = 0 then .num 0
        else .ratio ⟨SymbolicMultiSum.singleton symbolic_one, a.denominator.divScalar npv⟩
      | none =>
        match a.denominator.pure_value with
        | some dpv => .sum (a.numerator.divScalar dpv)
        | none =>
          if a.numerator.key = a.denominator.key then
            .num (a.numerator.coef / a.denominator.coef)
          else .ratio a

/-- Well-formedness of a constructed term: the variable/exponent list is
strictly sorted by variable (so the modelled dict is canonical) and carries no
zero exponents. -/
def MultiWF (m : SymbolicMulti) : Prop :=
  m.term.Pairwise (fun p q => p.1 < q.1) ∧ ∀ p ∈ m.term, p.2 ≠ 0

/-- Well-formedness of a constructed sum: every term well-formed with nonzero
coefficient, signatures pairwise distinct, and a single remaining term is not
pure (the constructor would have collapsed it). -/
def SumWF (s : SymbolicMultiSum) : Prop :=
  (∀ t ∈ s.terms, MultiWF t ∧ t.coef ≠ 0) ∧
  (s.terms.map SymbolicMulti.signature).Nodup ∧
  ∀ t, s.terms = [t] → t.term ≠ []

/-- The linear order on terms, used only to instantiate the value order of
Kinds whose values are symbolic (spec §3, invariant 2: "sorted by value under
a total order usable even when some weights are symbolic").  It is lifted from
the lexicographic order on the encoded data. -/
def SymbolicMulti.encode (m : SymbolicMulti) : (List String ×ₗ List ℤ) ×ₗ ℚ :=
  toLex (toLex (m.term.map Prod.fst, m.term.map Prod.snd), m.coef)

instance : LinearOrder SymbolicMulti :=
  LinearOrder.lift' SymbolicMulti.encode (by
    intro m m' h
    unfold SymbolicMulti.encode at h
    have h' : ((m.term.map Prod.fst, m.term.map Prod.snd), m.coef)
        = ((m'.term.map Prod.fst, m'.term.map Prod.snd), m'.coef) := h
    have h1 : m.term.map Prod.fst = m'.term.map Prod.fst := congrArg (fun x => x.1.1) h'
    have h2 : m.term.map Prod.snd = m'.term.map Prod.snd := congrArg (fun x => x.1.2) h'
    have h3 : m.coef = m'.coef := congrArg (fun x => x.2) h'
    have ht : m.term = m'.term := by
      have e1 : m.term = (m.term.map Prod.fst).zip (m.term.map Prod.snd) := by
        rw [List.zip_map']
        simp
      have e2 : m'.term = (m'.term.map Prod.fst).zip (m'.term.map Prod.snd) := by
        rw [List.zip_map']
        simp
      rw [e1, e2, h1, h2]
    cases m
    cases m'
    simp_all)

end Frplib

/-! ### Generic lemmas about the dict-style fold -/

namespace Frplib

section UpsertLemmas

variable {α κ : Type} (key : α → κ) [DecidableEq κ] (merge : α → α → α)

theorem upsertBy_append (ys : List α) (x : α) (h : ∀ y ∈ ys, key y ≠ key x) :
    upsertBy key merge ys x = ys ++ [x] := by
  induction ys with
  | nil => rfl
  | cons y ys ih =>
    have hy : ¬ key y = key x := h y (List.mem_cons_self y ys)
    simp only [upsertBy, if_neg hy, List.cons_append, List.cons.injEq, true_and]
    exact ih fun z hz => h z (List.mem_cons_of_mem _ hz)

theorem foldl_upsertBy_append (xs : List α) (acc : List α)
    (hnd : (xs.map key).Nodup)
    (hdisj : ∀ x ∈ xs, ∀ a ∈ acc, key a ≠ key x) :
    xs.foldl (upsertBy key merge) acc = acc ++ xs := by
  induction xs generalizing acc with
  | nil => simp
  | cons x xs ih =>
    simp only [List.map_cons, List.nodup_cons] at hnd
    simp only [List.foldl_cons]
    rw [upsertBy_append key merge acc x fun a ha => hdisj x (List.mem_cons_self x xs) a ha]
    rw [ih (acc ++ [x]) hnd.2]
    · simp
    · intro z hz a ha
      rcases List.mem_append.mp ha with ha | ha
      · exact hdisj z (List.mem_cons_of_mem _ hz) a ha
      · rcases List.mem_singleton.mp ha with rfl
        exact fun e => hnd.1 (e ▸ List.mem_map_of_mem key hz)

theorem sum_map_upsertBy (f : α → ℚ)
    (hf : ∀ a b, key a = key b → f (merge a b) = f a + f b)
    (ys : List α) (x : α) :
    ((upsertBy key merge ys x).map f).sum = (ys.map f).sum + f x := by
  induction ys with
  | nil => simp [upsertBy]
  | cons y ys ih =>
    by_cases h : key y = key x
    · simp only [upsertBy, if_pos h, List.map_cons, List.sum_cons, hf y x h]
      ring
    · simp only [upsertBy, if_neg h, List.map_cons, List.sum_cons, ih]
      ring

theorem sum_map_foldl_upsertBy (f : α → ℚ)
    (hf : ∀ a b, key a = key b → f (merge a b) = f a + f b)
    (xs : List α) (acc : List α) :
    ((xs.foldl (upsertBy key merge) acc).map f).sum = (acc.map f).sum + (xs.map f).sum := by
  induction xs generalizing acc with
  | nil => simp
  | cons x xs ih =>
    simp only [List.foldl_cons, List.map_cons, List.sum_cons]
    rw [ih, sum_map_upsertBy key merge f hf]
    ring

theorem forall_mem_upsertBy (P : α → Prop)
    (hm : ∀ a b, P a → P b → key a = key b → P (merge a b))
    (ys : List α) (x : α) (hys : ∀ y ∈ ys, P y) (hx : P x) :
    ∀ z ∈ upsertBy key merge ys x, P z := by
  induction ys with
  | nil => simpa [upsertBy] using hx
  | cons y ys ih =>
    have hy := hys y (List.mem_cons_self y ys)
    have hys' : ∀ y ∈ ys, P y := fun z hz => hys z (List.mem_cons_of_mem _ hz)
    intro z hz
    by_cases h : key y = key x
    · simp only [upsertBy, if_pos h, List.mem_cons] at hz
      rcases hz with rfl | hz
      · exact hm y x hy hx h
      · exact hys' z hz
    · simp only [upsertBy, if_neg h, List.mem_cons] at hz
      rcases hz with rfl | hz
      · exact hy
      · exact ih hys' z hz

theorem forall_mem_foldl_upsertBy (P : α → Prop)
    (hm : ∀ a b, P a → P b → key a = key b → P (merge a b))
    (xs : List α) (acc : List α) (hacc : ∀ a ∈ acc, P a) (hxs : ∀ x ∈ xs, P x) :
    ∀ z ∈ xs.foldl (upsertBy key merge) acc, P z := by
  induction xs generalizing acc with
  | nil => simpa using hacc
  | cons x xs ih =>
    simp only [List.foldl_cons]
    exact ih (upsertBy key merge acc x)
      (forall_mem_upsertBy key merge P hm acc x hacc (hxs x (List.mem_cons_self x xs)))
      (fun z hz => hxs z (List.mem_cons_of_mem _ hz))

theorem upsertBy_ne_nil (ys : List α) (x : α) : upsertBy key merge ys x ≠ [] := by
  cases ys with
  | nil => simp [upsertBy]
  | cons y ys =>
    by_cases h : key y = key x <;> simp [upsertBy, h]

theorem length_le_length_upsertBy (ys : List α) (x : α) :
    ys.length ≤ (upsertBy key merge ys x).length := by
  induction ys with
  | nil => simp [upsertBy]
  | cons y ys ih =>
    by_cases h : key y = key x
    · simp [upsertBy, h]
    · simpa [upsertBy, h] using ih

theorem length_le_foldl_upsertBy (xs : List α) (acc : List α) :
    acc.length ≤ (xs.foldl (upsertBy key merge) acc).length := by
  induction xs generalizing acc with
  | nil => simp
  | cons x xs ih =>
    simp only [List.foldl_cons]
    exact le_trans (length_le_length_upsertBy key merge acc x) (ih (upsertBy key merge acc x))

theorem foldl_upsertBy_ne_nil (xs : List α) (acc : List α) (h : xs ≠ []) :
    xs.foldl (upsertBy key merge) acc ≠ [] := by
  cases xs with
  | nil => exact absurd rfl h
  | cons x xs =>
    simp only [List.foldl_cons]
    have h1 : 1 ≤ (upsertBy key merge acc x).length := by
      rcases List.exists_cons_of_ne_nil (upsertBy_ne_nil key merge acc x) with ⟨z, zs, hz⟩
      simp [hz]
    have := le_trans h1 (length_le_foldl_upsertBy key merge xs (upsertBy key merge acc x))
    intro hnil
    rw [hnil] at this
    simp at this

end UpsertLemmas

/-! ### The tuple comparator -/

section ListLt

variable {V : Type} [LinearOrder V]

theorem listLt_asymm {v w : List V} (h : listLt v w = true) : listLt w v = false := by
  induction v generalizing w with
  | nil =>
    cases w with
    | nil => simp [listLt] at h
    | cons y ys => rfl
  | cons x xs ih =>
    cases w with
    | nil => simp [listLt] at h
    | cons y ys =>
      rcases lt_trichotomy x y with hxy | hxy | hxy
      · simp [listLt, hxy, lt_asymm hxy]
      · subst hxy
        simp only [listLt, if_neg (lt_irrefl x)] at h ⊢
        exact ih h
      · simp [listLt, hxy, lt_asymm hxy] at h

theorem ne_of_listLt {v w : List V} (h : listLt v w = true) : v ≠ w := by
  intro e
  subst e
  have := listLt_asymm h
  rw [this] at h
  exact Bool.false_ne_true h

theorem listLe_of_listLt {v w : List V} (h : listLt v w = true) : listLe v w = true := by
  simp [listLe, listLt_asymm h]

end ListLt

/-! ### Normalization lemmas -/

section NormalizeLemmas

variable {V : Type} [LinearOrder V]

/-- With pairwise-distinct values, the dict pass does not merge anything: it
lists the branches in order with weights divided by the total. -/
theorem normSeen_eq_map (bs : List (KindBranch V))
    (hnd : (bs.map KindBranch.vs).Nodup) :
    normSeen bs = bs.map fun b => ⟨b.vs, b.p / total bs⟩ := by
  unfold normSeen
  rw [show (fun (acc : List (KindBranch V)) (b : KindBranch V) =>
        upsertBy KindBranch.vs (fun old new => ⟨old.vs, old.p + new.p⟩) acc
          ⟨b.vs, b.p / total bs⟩)
      = fun acc b =>
        upsertBy KindBranch.vs (fun old new => ⟨old.vs, old.p + new.p⟩) acc
          ((fun c : KindBranch V => (⟨c.vs, c.p / total bs⟩ : KindBranch V)) b) from rfl]
  rw [← List.foldl_map]
  rw [foldl_upsertBy_append]
  · simp
  · simpa [List.map_map, Function.comp_def] using hnd
  · simp

/-- Weighted sums over the normalized branches: any branch function additive in
the weight sums over `normalize_branches bs` to its sum over `bs` with every
weight divided by the total. -/
theorem sum_map_normalize (g : KindBranch V → ℚ)
    (hg : ∀ v p q, g ⟨v, p + q⟩ = g ⟨v, p⟩ + g ⟨v, q⟩)
    (bs : List (KindBranch V)) :
    ((normalize_branches bs).map g).sum
      = (bs.map fun b => g ⟨b.vs, b.p / total bs⟩).sum := by
  unfold normalize_branches
  rw [((List.perm_insertionSort _ (normSeen bs)).map g).sum_eq]
  unfold normSeen
  rw [show (fun (acc : List (KindBranch V)) (b : KindBranch V) =>
        upsertBy KindBranch.vs (fun old new => ⟨old.vs, old.p + new.p⟩) acc
          ⟨b.vs, b.p / total bs⟩)
      = fun acc b =>
        upsertBy KindBranch.vs (fun old new => ⟨old.vs, old.p + new.p⟩) acc
          ((fun c : KindBranch V => (⟨c.vs, c.p / total bs⟩ : KindBranch V)) b) from rfl]
  rw [← List.foldl_map]
  rw [sum_map_foldl_upsertBy]
  · simp [List.map_map, Function.comp_def]
  · intro a b hab
    have h1 : g ⟨a.vs, a.p + b.p⟩ = g ⟨a.vs, a.p⟩ + g ⟨a.vs, b.p⟩ := hg a.vs a.p b.p
    rw [show (⟨a.vs, a.p⟩ : KindBranch V) = a from rfl] at h1
    rw [show (⟨a.vs, b.p⟩ : KindBranch V) = b from by rw [hab]] at h1
    exact h1

/-- Normalization is the identity on canonical branch lists. -/
theorem normalize_of_isCanonical (bs : List (KindBranch V)) (h : IsCanonical bs) :
    normalize_branches bs = bs := by
  rcases h with ⟨hsort, hone⟩
  rcases hone with rfl | hone
  · rfl
  · have hnd : (bs.map KindBranch.vs).Nodup := by
      rw [List.Nodup, List.pairwise_map]
      exact hsort.imp fun h => ne_of_listLt h
    unfold normalize_branches
    rw [normSeen_eq_map bs hnd, hone]
    have hmap : (bs.map fun b => (⟨b.vs, b.p / 1⟩ : KindBranch V)) = bs := by
      have he : (fun b : KindBranch V => (⟨b.vs, b.p / 1⟩ : KindBranch V)) = fun b => b := by
        funext b
        simp
      rw [he]
      exact List.map_id' bs
    rw [hmap]
    exact List.Sorted.insertionSort_eq (hsort.imp fun h => listLe_of_listLt h)

/-- Normalizing a nonempty branch list yields a nonempty branch list. -/
theorem normalize_ne_nil (bs : List (KindBranch V)) (h : bs ≠ []) :
    normalize_branches bs ≠ [] := by
  unfold normalize_branches
  intro hnil
  have hlen := List.length_insertionSort
    (fun b₁ b₂ : KindBranch V => listLe b₁.vs b₂.vs = true) (normSeen bs)
  rw [hnil] at hlen
  have hne : normSeen bs ≠ [] := by
    unfold normSeen
    rw [show (fun (acc : List (KindBranch V)) (b : KindBranch V) =>
          upsertBy KindBranch.vs (fun old new => ⟨old.vs, old.p + new.p⟩) acc
            ⟨b.vs, b.p / total bs⟩)
        = fun acc b =>
          upsertBy KindBranch.vs (fun old new => ⟨old.vs, old.p + new.p⟩) acc
            ((fun c : KindBranch V => (⟨c.vs, c.p / total bs⟩ : KindBranch V)) b) from rfl]
    rw [← List.foldl_map]
    exact foldl_upsertBy_ne_nil _ _ _ _ (by simpa using h)
  rcases List.exists_cons_of_ne_nil hne with ⟨z, zs, hz⟩
  rw [hz] at hlen
  simp at hlen

/-- Every property of branches preserved by weight-merging and satisfied by the
divided input branches holds of every normalized branch. -/
theorem forall_mem_normalize (bs : List (KindBranch V)) (P : KindBranch V → Prop)
    (hmerge : ∀ a b : KindBranch V, P a → P b → a.vs = b.vs → P ⟨a.vs, a.p + b.p⟩)
    (hP : ∀ b ∈ bs, P ⟨b.vs, b.p / total bs⟩) :
    ∀ z ∈ normalize_branches bs, P z := by
  intro z hz
  unfold normalize_branches at hz
  rw [List.mem_insertionSort] at hz
  unfold normSeen at hz
  rw [show (fun (acc : List (KindBranch V)) (b : KindBranch V) =>
        upsertBy KindBranch.vs (fun old new => ⟨old.vs, old.p + new.p⟩) acc
          ⟨b.vs, b.p / total bs⟩)
      = fun acc b =>
        upsertBy KindBranch.vs (fun old new => ⟨old.vs, old.p + new.p⟩) acc
          ((fun c : KindBranch V => (⟨c.vs, c.p / total bs⟩ : KindBranch V)) b) from rfl] at hz
  rw [← List.foldl_map] at hz
  refine forall_mem_foldl_upsertBy _ _ P ?_ _ _ (by simp) ?_ z hz
  · intro a b ha hb hab
    have := hmerge a b ha hb hab
    exact this
  · intro x hx
    rcases List.mem_map.mp hx with ⟨c, hc, rfl⟩
    exact hP c hc

/-- Membership in the normalized branches is membership in the dict pass. -/
theorem mem_normalize_iff (bs : List (KindBranch V)) (z : KindBranch V) :
    z ∈ normalize_branches bs ↔ z ∈ normSeen bs := by
  unfold normalize_branches
  exact List.mem_insertionSort _

/-- The normalized branch list has as many branches as the dict pass. -/
theorem length_normalize (bs : List (KindBranch V)) :
    (normalize_branches bs).length = (normSeen bs).length := by
  unfold normalize_branches
  exact List.length_insertionSort _ _

end NormalizeLemmas

/-! ### Kind-level helper lemmas -/

section KindLemmas

variable {V : Type}

theorem sum_map_div_weights (l : List (KindBranch V)) (c : ℚ) :
    (l.map fun b => b.p / c).sum = total l / c := by
  induction l with
  | nil => simp [total]
  | cons b l ih =>
    show b.p / c + (l.map fun b => b.p / c).sum = total (b :: l) / c
    rw [ih]
    unfold total
    rw [List.map_cons, List.sum_cons, add_div]

theorem total_map_reweight (l : List (KindBranch V)) (f : KindBranch V → ℚ) :
    total (l.map fun b => ⟨b.vs, f b⟩) = (l.map f).sum := by
  unfold total
  rw [List.map_map]
  rfl

theorem flatMap_map_singleton {α β : Type} (l : List α) (g : α → β) :
    (l.flatMap fun x => [g x]) = l.map g := by
  induction l with
  | nil => rfl
  | cons x xs ih => simp [ih]

variable [LinearOrder V]

theorem mkKind_canonical (spec : List (KindBranch V)) :
    (mkKind spec).canonical = normalize_branches spec := rfl

theorem empty_canonical : (Kind.empty : Kind V).canonical = [] := rfl

theorem unit_canonical (v : List V) : (Kind.unit v).canonical = [⟨v, 1⟩] := by
  norm_num [Kind.unit, mkKind, normalize_branches, normSeen, total, upsertBy,
    List.insertionSort, List.orderedInsert]

theorem normSeen_pair (x y : KindBranch V) (h : x.vs ≠ y.vs) :
    normSeen [x, y] = [⟨x.vs, x.p / total [x, y]⟩, ⟨y.vs, y.p / total [x, y]⟩] := by
  rw [normSeen_eq_map _ (by simp [h])]
  simp

theorem addScaled_length (p : ℚ) (ex vs : List ℚ) :
    (addScaled p ex vs).length = ex.length := by
  induction ex generalizing vs with
  | nil => cases vs <;> rfl
  | cons e ex ih =>
    cases vs with
    | nil => rfl
    | cons v vs => simp [addScaled, ih]

theorem addScaled_getD (p : ℚ) (ex vs : List ℚ) (j : ℕ) (hj : j < ex.length)
    (hlen : vs.length = ex.length) :
    (addScaled p ex vs).getD j 0 = ex.getD j 0 + p * vs.getD j 0 := by
  induction ex generalizing vs j with
  | nil => simp at hj
  | cons e ex ih =>
    cases vs with
    | nil => simp at hlen
    | cons v vs =>
      cases j with
      | zero => simp [addScaled]
      | succ j =>
        simp only [addScaled, List.getD_cons_succ]
        exact ih vs j (by simpa using hj) (by simpa using hlen)

theorem expectation_foldl (bs : List (KindBranch ℚ)) (ex : List ℚ) (j : ℕ)
    (hj : j < ex.length) (hlen : ∀ b ∈ bs, b.vs.length = ex.length) :
    (bs.foldl (fun ex b => addScaled b.p ex b.vs) ex).getD j 0
      = ex.getD j 0 + (bs.map fun b => b.p * b.vs.getD j 0).sum := by
  induction bs generalizing ex with
  | nil => simp
  | cons b bs ih =>
    simp only [List.foldl_cons, List.map_cons, List.sum_cons]
    rw [ih (addScaled b.p ex b.vs) (by rw [addScaled_length]; exact hj)
      fun c hc => by rw [addScaled_length]; exact hlen c (List.mem_cons_of_mem _ hc)]
    rw [addScaled_getD b.p ex b.vs j hj (hlen b (List.mem_cons_self b bs))]
    ring

/-- The `j`-th component of the expectation vector is the weighted sum of the
`j`-th value components. -/
theorem expectation_getD (K : Kind ℚ) (j : ℕ) (hj : j < K.dim)
    (hlen : ∀ b ∈ K.canonical, b.vs.length = K.dim) :
    K.expectation.getD j 0 = (K.canonical.map fun b => b.p * b.vs.getD j 0).sum := by
  unfold Kind.expectation
  rw [expectation_foldl _ _ _ (by simpa using hj)
    fun b hb => by simpa using hlen b hb]
  simp

theorem total_map_bimap {V : Type} (f : List V → List V) (l : List (KindBranch V)) :
    total (l.map (KindBranch.bimap f)) = total l := by
  unfold total
  rw [List.map_map]
  rfl

end KindLemmas

/-! ### Claim theorems -/

section Claims

/-- **C2** For every non-empty list of branches with purely numeric weights
whose total weight is nonzero, the Kind constructed from that list has branch
weights that sum to exactly 1 under exact arithmetic. -/
theorem kind_weight_closure {V : Type} [LinearOrder V] (spec : List (KindBranch V))
    (_h1 : spec ≠ []) (h2 : total spec ≠ 0) :
    total (mkKind spec).canonical = 1 := by
  rw [mkKind_canonical]
  have h := sum_map_normalize (V := V) KindBranch.p (fun v p q => rfl) spec
  unfold total
  rw [h]
  have he : (spec.map fun b => (⟨b.vs, b.p / total spec⟩ : KindBranch V).p)
      = spec.map fun b => b.p / total spec := rfl
  rw [he, sum_map_div_weights, div_self h2]

/-- Witness for C2 at a concrete branch list with a duplicate value. -/
theorem kind_weight_closure_witness :
    total (mkKind [(⟨[0], 1/2⟩ : KindBranch ℚ), ⟨[0], 3/2⟩]).canonical = 1 :=
  kind_weight_closure _ (by simp) (by norm_num [total])

/-- **C6** The empty Kind is a two-sided identity for independent mixture, and
has size 0 and dimension 0. -/
theorem empty_mixture_identity {V : Type} [LinearOrder V] (K : Kind V) :
    K.independent_mixture Kind.empty = K ∧ Kind.empty.independent_mixture K = K
    ∧ (Kind.empty : Kind V).size = 0 ∧ (Kind.empty : Kind V).dim = 0 := by
  refine ⟨?_, ?_, rfl, rfl⟩
  · simp [Kind.independent_mixture, empty_canonical]
  · by_cases h : K.canonical.length = 0
    · have hK : K = Kind.empty :=
        Kind.ext (by rw [empty_canonical, List.length_eq_zero.mp h])
      rw [hK]
      simp [Kind.independent_mixture, empty_canonical]
    · simp [Kind.independent_mixture, empty_canonical, h]

/-- **C9** Calling `marginal` with no index arguments returns the empty Kind
(size 0, dimension 0), for every Kind. -/
theorem marginal_no_indices {V : Type} [LinearOrder V] [Inhabited V] (K : Kind V) :
    K.marginal [] = some Kind.empty
    ∧ (Kind.empty : Kind V).size = 0 ∧ (Kind.empty : Kind V).dim = 0 :=
  ⟨by simp [Kind.marginal], rfl, rfl⟩

/-- **C10** Whenever `marginal` on the subscript raises, `__getitem__` catches
the exception and returns `NotImplemented`. -/
theorem getitem_catches_errors {V : Type} [LinearOrder V] [Inhabited V] (K : Kind V)
    (i : ℤ) (h : K.marginal [i] = none) :
    K.getitem i = GetItemResult.notImplemented := by
  unfold Kind.getitem
  rw [h]

/-- Witness for C10 at index 0, where `marginal` raises. -/
theorem getitem_catches_errors_witness :
    (Kind.unit [(0 : ℚ)]).getitem 0 = GetItemResult.notImplemented :=
  getitem_catches_errors _ 0 (by simp [Kind.marginal])

/-- **C7** `marginal` on integer indices errors exactly when some index is 0,
below `-dim`, or above `dim`; on in-range nonempty index tuples it returns the
projected Kind. -/
theorem marginal_index_check {V : Type} [LinearOrder V] [Inhabited V] (K : Kind V)
    (spec : List ℤ) :
    (K.marginal spec = none
        ↔ ∃ i ∈ spec, i = 0 ∨ i < -(K.dim : ℤ) ∨ (K.dim : ℤ) < i)
    ∧ (spec ≠ [] →
        (∀ i ∈ spec, ¬(i = 0 ∨ i < -(K.dim : ℤ) ∨ (K.dim : ℤ) < i)) →
        K.marginal spec = some (K.map (marginalize spec))) := by
  have hany : (spec.any fun index =>
        index = 0 || index < -(K.dim : ℤ) || index > (K.dim : ℤ)) = true
      ↔ ∃ i ∈ spec, i = 0 ∨ i < -(K.dim : ℤ) ∨ (K.dim : ℤ) < i := by
    simp [List.any_eq_true, or_assoc]
  constructor
  · by_cases h : spec = []
    · subst h
      simp [Kind.marginal]
    · simp only [Kind.marginal, if_neg h]
      by_cases h2 : (spec.any fun index =>
          index = 0 || index < -(K.dim : ℤ) || index > (K.dim : ℤ)) = true
      · rw [if_pos h2]
        exact ⟨fun _ => hany.mp h2, fun _ => rfl⟩
      · rw [if_neg h2]
        exact ⟨fun hc => absurd hc (by simp), fun hex => absurd (hany.mpr hex) h2⟩
  · intro h1 h2
    simp only [Kind.marginal, if_neg h1]
    rw [if_neg fun ha => by
      rcases hany.mp ha with ⟨i, hi, hbad⟩
      exact h2 i hi hbad]

/-- Witness for C7: a valid index on a one-dimensional Kind projects without
error. -/
theorem marginal_index_check_witness :
    (Kind.unit [(0 : ℚ)]).marginal [1]
      = some ((Kind.unit [(0 : ℚ)]).map (marginalize [1])) := by
  have hdim : (Kind.unit [(0 : ℚ)]).dim = 1 := by
    simp [Kind.dim, unit_canonical]
  refine (marginal_index_check _ [1]).2 (by simp) ?_
  intro i hi
  rw [List.mem_singleton] at hi
  subst hi
  rw [hdim]
  norm_num

/-- **C3** The monad identity laws for `bind` under Kind equality:
`K.bind(unit) == K` for canonical `K`, and `unit(a).bind(f) == f(a)` whenever
`f a` is canonical. -/
theorem bind_identity_laws {V : Type} [LinearOrder V] :
    (∀ K : Kind V, IsCanonical K.canonical → K.bind Kind.unit = K)
    ∧ ∀ (a : List V) (f : List V → Kind V), IsCanonical (f a).canonical →
        (Kind.unit a).bind f = f a := by
  constructor
  · intro K hc
    unfold Kind.bind
    have h1 : (fun b : KindBranch V =>
        (Kind.unit b.vs).canonical.map fun sb => (⟨sb.vs, b.p * sb.p⟩ : KindBranch V))
        = fun b => [b] := by
      funext b
      rw [unit_canonical]
      simp only [List.map_cons, List.map_nil, mul_one]
    rw [h1]
    rw [show (fun b : KindBranch V => [b]) = fun b => [id b] from rfl,
      flatMap_map_singleton, List.map_id]
    exact Kind.ext (by rw [mkKind_canonical]; exact normalize_of_isCanonical _ hc)
  · intro a f hc
    unfold Kind.bind
    rw [unit_canonical]
    simp only [List.flatMap_cons, List.flatMap_nil, List.append_nil, one_mul]
    have h1 : ((f a).canonical.map fun sb => (⟨sb.vs, sb.p⟩ : KindBranch V))
        = (f a).canonical := by
      have he : (fun sb : KindBranch V => (⟨sb.vs, sb.p⟩ : KindBranch V)) = fun sb => sb := by
        funext sb
        rfl
      rw [he, List.map_id']
    rw [h1]
    exact Kind.ext (by rw [mkKind_canonical]; exact normalize_of_isCanonical _ hc)

/-- Witness for C3 at concrete canonical Kinds. -/
theorem bind_identity_laws_witness :
    (Kind.unit [(3 : ℚ)]).bind Kind.unit = Kind.unit [3]
    ∧ (Kind.unit [(2 : ℚ)]).bind (fun _ => Kind.unit [5]) = Kind.unit [5] := by
  have hcan : ∀ v : List ℚ, IsCanonical (Kind.unit v).canonical := by
    intro v
    rw [unit_canonical]
    constructor
    · simp
    · right
      norm_num [total]
  exact ⟨(bind_identity_laws (V := ℚ)).1 _ (hcan [3]),
    (bind_identity_laws (V := ℚ)).2 [2] _ (hcan [5])⟩

/-- **C1 counterexample** The claim "filter keeps each branch's weight
unchanged (not renormalized)" fails on the uniform Kind over values 0 and 1
filtered to keep value 0: the kept branch comes back with weight 1, not its
prior weight 1/2. -/
theorem filter_weight_unchanged_counterexample :
    ((mkKind [(⟨[0], 1⟩ : KindBranch ℚ), ⟨[1], 1⟩]).filter
        fun v => decide (v = [0])).canonical = [⟨[0], 1⟩]
    ∧ ((mkKind [(⟨[0], 1⟩ : KindBranch ℚ), ⟨[1], 1⟩]).filter
        fun v => decide (v = [0])).canonical ≠ [⟨[0], 1/2⟩] := by
  have h : ((mkKind [(⟨[0], 1⟩ : KindBranch ℚ), ⟨[1], 1⟩]).filter
      fun v => decide (v = [0])).canonical = [⟨[0], 1⟩] := by
    norm_num [Kind.filter, mkKind, normalize_branches, normSeen, total, upsertBy,
      List.insertionSort, List.orderedInsert, listLe, listLt, List.filter]
  refine ⟨h, ?_⟩
  rw [h]
  intro e
  have : (1 : ℚ) = 1/2 := congrArg (fun l => (l.headD ⟨[], 0⟩).p) e
  norm_num at this

/-- **C1 (amended)** `K | predicate` keeps exactly the branches whose value
satisfies the predicate, but renormalizes them: each kept weight is divided by
the kept total, so the result sums to 1 whenever the kept total is nonzero. -/
theorem filter_renormalizes {V : Type} [LinearOrder V] (K : Kind V)
    (predicate : List V → Bool) (hc : IsCanonical K.canonical)
    (ht : total (K.canonical.filter fun b => predicate b.vs) ≠ 0) :
    (K.filter predicate).canonical
      = (K.canonical.filter fun b => predicate b.vs).map
          (fun b => ⟨b.vs, b.p / total (K.canonical.filter fun b => predicate b.vs)⟩)
    ∧ total (K.filter predicate).canonical = 1 := by
  have hsub : (K.canonical.filter fun b => predicate b.vs).Sublist K.canonical :=
    List.filter_sublist _
  have hpw : (K.canonical.filter fun b => predicate b.vs).Pairwise
      fun b₁ b₂ => listLt b₁.vs b₂.vs = true := hc.1.sublist hsub
  have hnd : ((K.canonical.filter fun b => predicate b.vs).map KindBranch.vs).Nodup := by
    rw [List.Nodup, List.pairwise_map]
    exact hpw.imp fun h => ne_of_listLt h
  have hfirst : (K.filter predicate).canonical
      = (K.canonical.filter fun b => predicate b.vs).map
          fun b => ⟨b.vs, b.p / total (K.canonical.filter fun b => predicate b.vs)⟩ := by
    unfold Kind.filter
    rw [mkKind_canonical]
    unfold normalize_branches
    rw [normSeen_eq_map _ hnd]
    apply List.Sorted.insertionSort_eq
    exact List.pairwise_map.mpr (hpw.imp fun h => listLe_of_listLt h)
  refine ⟨hfirst, ?_⟩
  rw [hfirst, total_map_reweight, sum_map_div_weights]
  exact div_self ht

/-- The two branches of `either a b r` for distinct values and positive ratio:
exactly two branches, `a` carrying `r/(1+r)` and `b` carrying `1/(1+r)`. -/
theorem either_canonical_parts {V : Type} [LinearOrder V] (a b : V) (r : ℚ)
    (hab : a ≠ b) (hr : 0 < r) :
    (either a b r).canonical.length = 2
    ∧ (⟨[a], r / (1 + r)⟩ : KindBranch V) ∈ (either a b r).canonical
    ∧ (⟨[b], 1 / (1 + r)⟩ : KindBranch V) ∈ (either a b r).canonical := by
  have h1r : (1 : ℚ) + r ≠ 0 := ne_of_gt (by linarith)
  have hvs : ([a] : List V) ≠ [b] := by simp [hab]
  have hw : (1 : ℚ) - r / (1 + r) = 1 / (1 + r) := by
    field_simp
  have htot : total [(⟨[a], r / (1 + r)⟩ : KindBranch V), ⟨[b], 1 - r / (1 + r)⟩] = 1 := by
    simp [total]
  have hseen : normSeen [(⟨[a], r / (1 + r)⟩ : KindBranch V), ⟨[b], 1 - r / (1 + r)⟩]
      = [⟨[a], r / (1 + r)⟩, ⟨[b], 1 / (1 + r)⟩] := by
    rw [normSeen_pair _ _ hvs, htot]
    simp [hw]
  have hE : (either a b r).canonical
      = normalize_branches [(⟨[a], r / (1 + r)⟩ : KindBranch V), ⟨[b], 1 - r / (1 + r)⟩] := by
    simp only [either, mkKind_canonical]
  refine ⟨?_, ?_, ?_⟩
  · rw [hE, length_normalize, hseen]
    rfl
  · rw [hE, mem_normalize_iff, hseen]
    simp
  · rw [hE, mem_normalize_iff, hseen]
    simp

theorem symbol_a_eval : symbol "a" = ⟨[("a", 1)], 1⟩ := by
  norm_num [symbol, SymbolicMulti.make, upsertBy, List.zip, List.zipWith,
    List.insertionSort, List.orderedInsert, List.filter]

theorem two_symbol_a_eval : SymbolicMulti.make ["a"] [1] 2 = ⟨[("a", 1)], 2⟩ := by
  norm_num [SymbolicMulti.make, upsertBy, List.zip, List.zipWith,
    List.insertionSort, List.orderedInsert, List.filter]

/-- **C5** `either` splits weight by the given ratio: for distinct rational
values and positive ratio `r`, exactly two branches carrying `r/(1+r)` and
`1/(1+r)`; in particular `either 0 1` carries `1/2, 1/2`, and on the symbolic
values `a` and `2a` (the monomial `2·a`, i.e. `2 * symbol a` in the source
arithmetic) with ratio 2 the weights are `2/3` and `1/3`. -/
theorem either_ratio_weights :
    (∀ a b r : ℚ, a ≠ b → 0 < r →
      (either a b r).canonical.length = 2
      ∧ (⟨[a], r / (1 + r)⟩ : KindBranch ℚ) ∈ (either a b r).canonical
      ∧ (⟨[b], 1 / (1 + r)⟩ : KindBranch ℚ) ∈ (either a b r).canonical)
    ∧ ((either (symbol "a") (SymbolicMulti.make ["a"] [1] 2) 2).canonical.length = 2
      ∧ (⟨[symbol "a"], 2/3⟩ : KindBranch SymbolicMulti)
          ∈ (either (symbol "a") (SymbolicMulti.make ["a"] [1] 2) 2).canonical
      ∧ (⟨[SymbolicMulti.make ["a"] [1] 2], 1/3⟩ : KindBranch SymbolicMulti)
          ∈ (either (symbol "a") (SymbolicMulti.make ["a"] [1] 2) 2).canonical) := by
  constructor
  · intro a b r hab hr
    exact either_canonical_parts a b r hab hr
  · have hab : symbol "a" ≠ SymbolicMulti.make ["a"] [1] 2 := by
      rw [symbol_a_eval, two_symbol_a_eval]
      intro e
      have : (1 : ℚ) = 2 := congrArg SymbolicMulti.coef e
      norm_num at this
    obtain ⟨hl, hm1, hm2⟩ :=
      either_canonical_parts (symbol "a") (SymbolicMulti.make ["a"] [1] 2) 2 hab (by norm_num)
    refine ⟨hl, ?_, ?_⟩
    · rw [show (2 : ℚ)/3 = 2/(1+2) from by norm_num]
      exact hm1
    · rw [show (1 : ℚ)/3 = 1/(1+2) from by norm_num]
      exact hm2

/-- **C4** For a canonical, dimension-consistent numeric Kind and a valid
index `1 ≤ i ≤ dim`, marginalizing to component `i` succeeds and the
marginal's scalar expectation (component 0 of its expectation vector) equals
the `i`-th component of the joint expectation. -/
theorem marginal_expectation_component (K : Kind ℚ) (i : ℕ)
    (hc : IsCanonical K.canonical)
    (hlen : ∀ b ∈ K.canonical, b.vs.length = K.dim)
    (h1 : 1 ≤ i) (h2 : i ≤ K.dim) :
    K.marginal [(i : ℤ)] = some (K.map (marginalize [(i : ℤ)]))
    ∧ ((K.map (marginalize [(i : ℤ)])).expectation).getD 0 0
        = K.expectation.getD (i - 1) 0 := by
  have hA : K.marginal [(i : ℤ)] = some (K.map (marginalize [(i : ℤ)])) := by
    simp only [Kind.marginal, if_neg (show ¬([(i : ℤ)] = []) by simp)]
    rw [if_neg ?hcheck]
    case hcheck =>
      intro hany
      simp only [List.any_cons, List.any_nil, Bool.or_false, Bool.or_eq_true,
        decide_eq_true_eq] at hany
      omega
  refine ⟨hA, ?_⟩
  have hKne : K.canonical ≠ [] := by
    intro e
    have hd : K.dim = 0 := by simp [Kind.dim, e]
    omega
  have htot1 : total K.canonical = 1 := (hc.2).resolve_left hKne
  have hmlen : ∀ b ∈ K.canonical.map (KindBranch.bimap (marginalize [(i : ℤ)])),
      b.vs.length = 1 := by
    intro b hb
    rcases List.mem_map.mp hb with ⟨c, hc', rfl⟩
    simp [KindBranch.bimap, marginalize]
  have hMcanon : (K.map (marginalize [(i : ℤ)])).canonical
      = normalize_branches (K.canonical.map (KindBranch.bimap (marginalize [(i : ℤ)]))) := by
    simp only [Kind.map, mkKind_canonical]
  have hMne : (K.map (marginalize [(i : ℤ)])).canonical ≠ [] := by
    rw [hMcanon]
    exact normalize_ne_nil _ (by simpa using hKne)
  have hMlen : ∀ z ∈ (K.map (marginalize [(i : ℤ)])).canonical, z.vs.length = 1 := by
    rw [hMcanon]
    refine forall_mem_normalize _ (fun z => z.vs.length = 1) ?_ ?_
    · intro a b ha _hb _hab
      exact ha
    · intro b hb
      exact hmlen b hb
  have hMdim : (K.map (marginalize [(i : ℤ)])).dim = 1 := by
    rcases List.exists_cons_of_ne_nil hMne with ⟨z, zs, hz⟩
    have hzmem : z ∈ (K.map (marginalize [(i : ℤ)])).canonical := by
      rw [hz]
      exact List.mem_cons_self z zs
    have := hMlen z hzmem
    simp [Kind.dim, hz, this]
  rw [expectation_getD _ 0 (by omega) (fun b hb => by rw [hMdim]; exact hMlen b hb)]
  rw [expectation_getD _ (i - 1) (by omega) hlen]
  rw [hMcanon]
  rw [sum_map_normalize _ (fun v p q => by ring) _]
  rw [total_map_bimap, htot1]
  rw [List.map_map]
  apply congrArg List.sum
  apply List.map_congr_left
  intro c hcmem
  have hcd : c.vs.length = K.dim := hlen c hcmem
  have hipos : (0 : ℤ) < (i : ℤ) := by omega
  have hproj : marginalize [(i : ℤ)] c.vs = [c.vs.getD (i - 1) default] := by
    simp [marginalize, hipos]
  show (KindBranch.bimap (marginalize [(i : ℤ)]) c).p / 1
      * ((KindBranch.bimap (marginalize [(i : ℤ)]) c).vs.getD 0 0)
      = c.p * c.vs.getD (i - 1) 0
  rw [div_one]
  have hvs : (KindBranch.bimap (marginalize [(i : ℤ)]) c).vs = [c.vs.getD (i - 1) default] := by
    simp [KindBranch.bimap, hproj]
  rw [hvs]
  have hrange : i - 1 < c.vs.length := by omega
  rw [List.getD_cons_zero, List.getD_eq_getElem _ _ hrange, List.getD_eq_getElem _ _ hrange]
  rfl

/-- Witness for C5 at `either(0, 1)`: two branches with weights exactly
`1/2 = 1/(1+1)` each. -/
theorem either_ratio_weights_witness :
    (either (0 : ℚ) 1 1).canonical.length = 2
    ∧ (⟨[(0 : ℚ)], 1 / (1 + 1)⟩ : KindBranch ℚ) ∈ (either (0 : ℚ) 1 1).canonical
    ∧ (⟨[(1 : ℚ)], 1 / (1 + 1)⟩ : KindBranch ℚ) ∈ (either (0 : ℚ) 1 1).canonical :=
  either_ratio_weights.1 0 1 1 (by norm_num) (by norm_num)

/-- Witness for C4: the two-point Kind on values (10) and (20) with equal
weights has marginal-1 expectation equal to component 1 of its expectation. -/
theorem marginal_expectation_component_witness :
    (mkKind [(⟨[10], 1⟩ : KindBranch ℚ), ⟨[20], 1⟩]).marginal [(1 : ℤ)]
      = some ((mkKind [(⟨[10], 1⟩ : KindBranch ℚ), ⟨[20], 1⟩]).map (marginalize [(1 : ℤ)]))
    ∧ (((mkKind [(⟨[10], 1⟩ : KindBranch ℚ), ⟨[20], 1⟩]).map
          (marginalize [(1 : ℤ)])).expectation).getD 0 0
        = (mkKind [(⟨[10], 1⟩ : KindBranch ℚ), ⟨[20], 1⟩]).expectation.getD 0 0 := by
  have hcanon : (mkKind [(⟨[10], 1⟩ : KindBranch ℚ), ⟨[20], 1⟩]).canonical
      = [⟨[10], 1/2⟩, ⟨[20], 1/2⟩] := by
    norm_num [mkKind, normalize_branches, normSeen, total, upsertBy,
      List.insertionSort, List.orderedInsert, listLe, listLt]
  have hdim : (mkKind [(⟨[10], 1⟩ : KindBranch ℚ), ⟨[20], 1⟩]).dim = 1 := by
    simp [Kind.dim, hcanon]
  exact marginal_expectation_component _ 1
    (by
      rw [hcanon]
      constructor
      · norm_num [listLt]
      · right
        norm_num [total])
    (by
      rw [hcanon, hdim]
      intro b hb
      simp only [List.mem_cons, List.mem_singleton, List.not_mem_nil, or_false] at hb
      rcases hb with rfl | rfl <;> rfl)
    le_rfl (by rw [hdim])

/-- Witness for the amended C1 at the uniform Kind over 0 and 1. -/
theorem filter_renormalizes_witness :
    total ((mkKind [(⟨[0], 1⟩ : KindBranch ℚ), ⟨[1], 1⟩]).filter
      fun v => decide (v = [0])).canonical = 1 := by
  have hcan : (mkKind [(⟨[0], 1⟩ : KindBranch ℚ), ⟨[1], 1⟩]).canonical
      = [⟨[0], 1/2⟩, ⟨[1], 1/2⟩] := by
    norm_num [mkKind, normalize_branches, normSeen, total, upsertBy,
      List.insertionSort, List.orderedInsert, listLe, listLt]
  refine (filter_renormalizes _ _ ?_ ?_).2
  · rw [hcan]
    constructor
    · norm_num [listLt]
    · right
      norm_num [total]
  · rw [hcan]
    norm_num [total, List.filter]

end Claims

/-! ### Symbolic simplification lemmas and claim C8 -/

section SymbolicLemmas

theorem from_terms_of_wf (m : SymbolicMulti) (c : ℚ) (hwf : MultiWF m) (hc : c ≠ 0) :
    SymbolicMulti.from_terms m.term c = ⟨m.term, c⟩ := by
  have hfe : m.term.filter (fun p => decide (p.2 ≠ 0)) = m.term :=
    List.filter_eq_self.mpr fun p hp => by simpa using hwf.2 p hp
  have hnd : (m.term.map Prod.fst).Nodup := by
    rw [List.Nodup, List.pairwise_map]
    exact hwf.1.imp fun h => ne_of_gt h |>.symm
  unfold SymbolicMulti.from_terms
  rw [if_neg hc]
  simp only [hfe]
  unfold SymbolicMulti.make
  rw [if_neg hc]
  rw [List.zip_map']
  have hmk : (m.term.map fun x => (x.1, x.2)) = m.term := by
    simp
  rw [hmk]
  rw [foldl_upsertBy_append Prod.fst _ m.term [] hnd (by simp)]
  rw [List.nil_append]
  rw [List.Sorted.insertionSort_eq (hwf.1.imp fun h => le_of_lt h)]
  rw [hfe]

theorem divScalar_of_wf (m : SymbolicMulti) (d : ℚ) (hwf : MultiWF m)
    (hm : m.coef ≠ 0) (hd : d ≠ 0) :
    m.divScalar d = ⟨m.term, m.coef / d⟩ :=
  from_terms_of_wf m _ hwf (div_ne_zero hm hd)

theorem sig_div_ne {a b : SymbolicMulti} {d : ℚ} (hd : d ≠ 0)
    (h : a.signature ≠ b.signature) :
    (⟨a.term, a.coef / d⟩ : SymbolicMulti).signature
      ≠ (⟨b.term, b.coef / d⟩ : SymbolicMulti).signature := by
  unfold SymbolicMulti.signature at h ⊢
  by_cases ha : a.term = [] <;> by_cases hb : b.term = [] <;>
    simp only [ha, hb, if_pos, if_neg, if_true, if_false] at h ⊢ <;> simp_all
  intro e
  have : a.coef = b.coef := by
    have h2 := congrArg (fun x => x * d) e
    simpa [div_mul_cancel₀, hd] using h2
  exact h this

theorem combine_terms_of_nodup (ts : List SymbolicMulti)
    (hnd : (ts.map SymbolicMulti.signature).Nodup)
    (hz : ∀ t ∈ ts, t.coef ≠ 0) :
    combine_terms ts = ts := by
  unfold combine_terms
  rw [foldl_upsertBy_append SymbolicMulti.signature _ ts [] hnd (by simp)]
  rw [List.nil_append]
  exact List.filter_eq_self.mpr fun t ht => by simpa using hz t ht

theorem make_terms_perm (ts : List SymbolicMulti)
    (hnd : (ts.map SymbolicMulti.signature).Nodup)
    (hz : ∀ t ∈ ts, t.coef ≠ 0)
    (hne : ts ≠ [])
    (hsingle : ∀ t, ts = [t] → t.term ≠ []) :
    (SymbolicMultiSum.make ts).terms.Perm ts := by
  unfold SymbolicMultiSum.make
  rw [combine_terms_of_nodup ts hnd hz]
  cases ts with
  | nil => exact absurd rfl hne
  | cons t₁ rest =>
    cases rest with
    | nil =>
      show (if t₁.term = [] then (⟨[], t₁.coef⟩ : SymbolicMultiSum)
        else sumGeneral [t₁]).terms.Perm [t₁]
      rw [if_neg (hsingle t₁ rfl)]
      unfold sumGeneral
      simp [List.insertionSort, List.orderedInsert]
    | cons t₂ rest₂ =>
      show (sumGeneral (t₁ :: t₂ :: rest₂)).terms.Perm (t₁ :: t₂ :: rest₂)
      unfold sumGeneral
      exact List.perm_insertionSort _ _

/-- **C8** For a symbolic Ratio whose denominator is pure with nonzero value
`d` and whose numerator is a well-formed non-pure Sum, `simplify` returns a
plain Sum — not a Ratio — whose terms are the numerator's terms with every
coefficient divided by `d`. -/
theorem simplify_pure_denominator (r : SymbolicMultiRatio) (d : ℚ)
    (hwf : SumWF r.numerator)
    (hd : r.denominator.pure_value = some d)
    (hn : r.numerator.pure_value = none)
    (hdz : d ≠ 0) :
    simplify (.ratio r) = .sum (r.numerator.divScalar d)
    ∧ (r.numerator.divScalar d).terms.Perm
        (r.numerator.terms.map fun t => ⟨t.term, t.coef / d⟩) := by
  have hterms_ne : r.numerator.terms ≠ [] := by
    intro e
    rw [SymbolicMultiSum.pure_value, if_pos e] at hn
    cases hn
  constructor
  · simp only [simplify, SymbolicMultiRatio.pure_value, hn, hd]
  · unfold SymbolicMultiSum.divScalar
    by_cases hd1 : d = 1
    · rw [if_pos hd1]
      subst hd1
      have : (r.numerator.terms.map fun t => (⟨t.term, t.coef / 1⟩ : SymbolicMulti))
          = r.numerator.terms := by
        have he : (fun t : SymbolicMulti => (⟨t.term, t.coef / 1⟩ : SymbolicMulti))
            = fun t => t := by
          funext t
          simp
        rw [he, List.map_id']
      rw [this]
    · rw [if_neg hd1]
      have hmap : (r.numerator.terms.map fun t => t.divScalar d)
          = r.numerator.terms.map fun t => ⟨t.term, t.coef / d⟩ :=
        List.map_congr_left fun t ht =>
          divScalar_of_wf t d (hwf.1 t ht).1 (hwf.1 t ht).2 hdz
      rw [hmap]
      apply make_terms_perm
      · rw [List.Nodup, List.pairwise_map, List.pairwise_map]
        have h0 := hwf.2.1
        rw [List.Nodup, List.pairwise_map] at h0
        exact h0.imp fun h => sig_div_ne hdz h
      · intro t ht
        rcases List.mem_map.mp ht with ⟨c, hc, rfl⟩
        exact div_ne_zero (hwf.1 c hc).2 hdz
      · simpa using hterms_ne
      · intro t' ht'
        cases hts : r.numerator.terms with
        | nil => exact absurd hts hterms_ne
        | cons t rest =>
          cases rest with
          | nil =>
            rw [hts] at ht'
            simp only [List.map_cons, List.map_nil, List.cons.injEq, and_true] at ht'
            have hterm : t'.term = t.term := (congrArg SymbolicMulti.term ht').symm
            rw [hterm]
            exact hwf.2.2 t hts
          | cons u rest₂ =>
            rw [hts] at ht'
            simp at ht'

theorem make_two_a_sum_eval :
    SymbolicMultiSum.make [SymbolicMulti.make ["a"] [1] 2]
      = ⟨[⟨[("a", 1)], 2⟩], 2⟩ := by
  norm_num [SymbolicMultiSum.make, combine_terms, upsertBy, two_symbol_a_eval,
    sumGeneral, SymbolicMulti.order, SymbolicMulti.signature,
    List.insertionSort, List.orderedInsert, List.filter]

theorem make_pure_two_sum_eval :
    SymbolicMultiSum.make [SymbolicMulti.pureTerm 2] = ⟨[], 2⟩ := by
  norm_num [SymbolicMultiSum.make, combine_terms, upsertBy, SymbolicMulti.pureTerm,
    SymbolicMulti.make, sumGeneral, SymbolicMulti.order, SymbolicMulti.signature,
    List.insertionSort, List.orderedInsert, List.filter, List.zip, List.zipWith]

/-- Witness for C8 at the ratio `(2a) / 2`. -/
theorem simplify_pure_denominator_witness :
    simplify (.ratio ⟨SymbolicMultiSum.make [SymbolicMulti.make ["a"] [1] 2],
        SymbolicMultiSum.make [SymbolicMulti.pureTerm 2]⟩)
      = .sum ((SymbolicMultiSum.make [SymbolicMulti.make ["a"] [1] 2]).divScalar 2)
    ∧ ((SymbolicMultiSum.make [SymbolicMulti.make ["a"] [1] 2]).divScalar 2).terms.Perm
        ((SymbolicMultiSum.make [SymbolicMulti.make ["a"] [1] 2]).terms.map
          fun t => ⟨t.term, t.coef / 2⟩) := by
  refine simplify_pure_denominator _ 2 ?_ ?_ ?_ (by norm_num)
  · rw [make_two_a_sum_eval]
    refine ⟨?_, ?_, ?_⟩
    · intro t ht
      rw [List.mem_singleton] at ht
      subst ht
      refine ⟨⟨?_, ?_⟩, by norm_num⟩
      · simp
      · intro p hp
        rw [List.mem_singleton] at hp
        subst hp
        norm_num
    · simp
    · intro t ht
      have : t = (⟨[("a", 1)], 2⟩ : SymbolicMulti) := by
        have := congrArg (fun l => l.headD ⟨[], 0⟩) ht
        simpa using this.symm
      rw [this]
      simp
  · rw [make_pure_two_sum_eval]
    rfl
  · rw [make_two_a_sum_eval]
    rfl

end SymbolicLemmas

end Frplib
